import Mathlib

set_option maxRecDepth 8000

/-!
# Verification of the Hamiltonian-path bitmask DP solver

Shallow embedding of `src/main.py`:

* `find_hamiltonian_path` — the bitmask dynamic program deciding whether a
  directed graph given as an adjacency matrix has a Hamiltonian path, and
  reconstructing one via parent pointers;
* `run` — the entry point reading `"adjacency_matrix"` from the request
  object and wrapping the answer in a response object.

Python lists of booleans/ints become `List (List Nat)` (an entry is an edge
iff it is nonzero, mirroring Python truthiness).  The mutable `dp` and
`parent` tables become total maps `Nat → Nat → Bool` / `Nat → Nat → Int`
updated functionally; every `for` loop becomes a `List.foldl` over the very
`range` the source iterates.  The matrix itself is carried inside the loop
state (`DPState.adjM`) so that the absence of writes to it is a provable
statement rather than a modelling assumption.  The `while` reconstruction
loop becomes a fuel-indexed recursion (`reconstructLoop`) whose boolean
result records that the `-1` sentinel was reached; fuel sufficiency is
proved, not assumed.
-/

/-- `adj[u][v]` of the Python source: entry `v` of row `u`, `0` (no edge)
when out of range.  The DP only reads it at `u, v < n` for square input. -/
def adjVal (adj : List (List Nat)) (u v : Nat) : Nat :=
  (adj.getD u []).getD v 0

/-- The input contract of the solver: a square matrix. -/
def Square (adj : List (List Nat)) : Prop :=
  ∀ row ∈ adj, row.length = adj.length

/-- The directed edge relation encoded by the matrix (Python truthiness of
`adj[u][v]`). -/
def edgeRel (adj : List (List Nat)) (u v : Nat) : Prop :=
  adjVal adj u v ≠ 0

instance (adj : List (List Nat)) : DecidableRel (edgeRel adj) := fun u v =>
  inferInstanceAs (Decidable (adjVal adj u v ≠ 0))

instance (adj : List (List Nat)) : Decidable (Square adj) :=
  decidable_of_iff (∀ row ∈ adj, row.length = adj.length) Iff.rfl

/-- Pointwise update of a two-argument table, the functional rendering of
`t[m][u] = a` on a Python list of lists. -/
def upd2 {α : Type} (f : Nat → Nat → α) (m u : Nat) (a : α) : Nat → Nat → α :=
  fun m' u' => if m' = m ∧ u' = u then a else f m' u'

/-- The working state of one call of `find_hamiltonian_path`: the caller's
adjacency matrix together with the `dp` and `parent` tables. -/
structure DPState where
  adjM : List (List Nat)
  dp : Nat → Nat → Bool
  parent : Nat → Nat → Int

/-- One iteration of the base-case loop (lines 28–30):
`dp[1 << v][v] = True; parent[1 << v][v] = -1`. -/
def initStep (s : DPState) (v : Nat) : DPState :=
  { s with dp := upd2 s.dp (1 <<< v) v true,
           parent := upd2 s.parent (1 <<< v) v (-1) }

/-- Lines 23–30 of the source: `dp` all `False`, `parent` all `-1`, then
the base-case loop over every vertex `v`. -/
def initState (adj : List (List Nat)) : DPState :=
  (List.range adj.length).foldl initStep
    { adjM := adj, dp := fun _ _ => false, parent := fun _ _ => (-1 : Int) }

/-- Body of the innermost loop (lines 37–43): try to extend the path ending
at `u` over the vertices in `mask` by the vertex `v`.  The two nested `if`s
mirror Python's short-circuit `(mask & (1 << v)) == 0 and adj[u][v]`. -/
def extendStep (mask u : Nat) (s : DPState) (v : Nat) : DPState :=
  if mask &&& (1 <<< v) = 0 then
    if adjVal s.adjM u v ≠ 0 then
      if s.dp (mask ||| (1 <<< v)) v = true then s
      else
        { s with dp := upd2 s.dp (mask ||| (1 <<< v)) v true,
                 parent := upd2 s.parent (mask ||| (1 <<< v)) v (Int.ofNat u) }
    else s
  else s

/-- `for v in range(n): ...` (line 37). -/
def innerLoop (n mask u : Nat) (s : DPState) : DPState :=
  (List.range n).foldl (extendStep mask u) s

/-- One iteration of `for u in range(n): if dp[mask][u]: ...`
(lines 34–35); the test reads the live state, exactly as Python does. -/
def middleStep (n mask : Nat) (s : DPState) (u : Nat) : DPState :=
  if s.dp mask u = true then innerLoop n mask u s else s

/-- `for u in range(n): ...` (line 34). -/
def middleLoop (n mask : Nat) (s : DPState) : DPState :=
  (List.range n).foldl (middleStep n mask) s

/-- The first `k` iterations of the outer mask loop (line 33). -/
def dpUpTo (n k : Nat) (s : DPState) : DPState :=
  (List.range k).foldl (fun s mask => middleLoop n mask s) s

/-- `for mask in range(1 << n): ...` (line 33), in full. -/
def dpLoop (n : Nat) (s : DPState) : DPState :=
  dpUpTo n (1 <<< n) s

/-- The reconstruction `while` loop (lines 49–59).  Each step appends the
current vertex, stops when `parent[cur_mask][cur_v]` is the `-1` sentinel,
and otherwise clears the current vertex's bit and moves to the predecessor.
The boolean reports that the sentinel was reached before the fuel ran out;
the source's `while cur_v != -1` guard is dead after the first iteration
because `cur_v` is only ever replaced by a predecessor that is not `-1`. -/
def reconstructLoop (par : Nat → Nat → Int) :
    Nat → Nat → Nat → List Nat × Bool
  | 0, _, _ => ([], false)
  | fuel + 1, curMask, curV =>
    if par curMask curV = -1 then ([curV], true)
    else
      let r := reconstructLoop par fuel (curMask ^^^ (1 <<< curV))
        (par curMask curV).toNat
      (curV :: r.1, r.2)

/-- `find_hamiltonian_path` (lines 3–62): run the DP, scan
`dp[full_mask][v]` for `v` in increasing order, reconstruct backwards from
the first hit and reverse; report `(False, [])` when there is no hit. -/
def find_hamiltonian_path (adj : List (List Nat)) : Bool × List Nat :=
  let n := adj.length
  let full_mask := (1 <<< n) - 1
  let s := dpLoop n (initState adj)
  match (List.range n).find? (fun v => s.dp full_mask v) with
  | some v =>
    (true, ((reconstructLoop s.parent (n + 1) full_mask v).1).reverse)
  | none => (false, [])

/-- The response object of `run` (lines 88–91). -/
structure RunOutput where
  optimal_solution : List Nat
  existence : Nat
deriving DecidableEq

/-- A Python exception escaping `run`; `input_data["adjacency_matrix"]` on a
dict without that key raises `KeyError "adjacency_matrix"`. -/
inductive PyError where
  | keyError : String → PyError
deriving DecidableEq

/-- `run` (lines 64–91).  The request dict is modelled as an association
list from string keys to matrices; `input_data["adjacency_matrix"]` is the
lookup of that key, raising `KeyError` when absent.  The two optional
parameters (`None` by default in the source) are accepted at any type and
never read. -/
def run {α β : Type} (input_data : List (String × List (List Nat)))
    (solver_params : Option α) (extra_arguments : Option β) :
    Except PyError RunOutput :=
  match input_data.lookup "adjacency_matrix" with
  | none => Except.error (PyError.keyError "adjacency_matrix")
  | some adjacency_matrix =>
    let r := find_hamiltonian_path adjacency_matrix
    Except.ok { optimal_solution := r.2,
                existence := if r.1 then 1 else 0 }

/-! ## Bit-level helper lemmas -/

lemma one_shiftLeft_eq_pow (v : Nat) : 1 <<< v = 2 ^ v := by
  simp [Nat.shiftLeft_eq]

lemma and_shift_eq_zero_iff (m v : Nat) :
    m &&& (1 <<< v) = 0 ↔ m.testBit v = false := by
  rw [one_shiftLeft_eq_pow]
  constructor
  · intro h
    have := congrArg (fun x => Nat.testBit x v) h
    simpa [Nat.testBit_and, Nat.testBit_two_pow_self] using this
  · intro h
    apply Nat.eq_of_testBit_eq
    intro i
    rcases eq_or_ne i v with rfl | hne
    · simp [Nat.testBit_and, h]
    · simp [Nat.testBit_and, Nat.testBit_two_pow_of_ne (Ne.symm hne)]

lemma lt_or_shift (m v : Nat) (h : m &&& (1 <<< v) = 0) :
    m < m ||| (1 <<< v) := by
  have hbit : m.testBit v = false := (and_shift_eq_zero_iff m v).mp h
  rw [one_shiftLeft_eq_pow]
  apply Nat.lt_of_testBit v hbit
  · simp [Nat.testBit_or, Nat.testBit_two_pow_self]
  · intro j hj
    simp [Nat.testBit_or, Nat.testBit_two_pow_of_ne (Nat.ne_of_lt hj)]

lemma or_xor_shift (m v : Nat) (h : m &&& (1 <<< v) = 0) :
    (m ||| (1 <<< v)) ^^^ (1 <<< v) = m := by
  have hbit : m.testBit v = false := (and_shift_eq_zero_iff m v).mp h
  rw [one_shiftLeft_eq_pow]
  apply Nat.eq_of_testBit_eq
  intro i
  rcases eq_or_ne i v with rfl | hne
  · simp [Nat.testBit_xor, Nat.testBit_or, Nat.testBit_two_pow_self, hbit]
  · simp [Nat.testBit_xor, Nat.testBit_or,
      Nat.testBit_two_pow_of_ne (Ne.symm hne)]

lemma testBit_xor_shift_self (m u : Nat) :
    (m ^^^ (1 <<< u)).testBit u = !m.testBit u := by
  rw [one_shiftLeft_eq_pow]
  simp [Nat.testBit_xor, Nat.testBit_two_pow_self]

lemma testBit_xor_shift_other (m u x : Nat) (hx : x ≠ u) :
    (m ^^^ (1 <<< u)).testBit x = m.testBit x := by
  rw [one_shiftLeft_eq_pow]
  simp [Nat.testBit_xor, Nat.testBit_two_pow_of_ne (Ne.symm hx)]

lemma xor_shift_lt (m u : Nat) (h : m.testBit u = true) :
    m ^^^ (1 <<< u) < m := by
  apply Nat.lt_of_testBit u
  · simp [testBit_xor_shift_self, h]
  · exact h
  · intro j hj
    exact testBit_xor_shift_other m u j (Nat.ne_of_gt hj)

lemma shift_lt_shift (v n : Nat) (h : v < n) : 1 <<< v < 1 <<< n := by
  rw [one_shiftLeft_eq_pow, one_shiftLeft_eq_pow]
  exact Nat.pow_lt_pow_right (by omega) h

/-! ## Monotonicity: `dp` cells are set once and never reset, and the
`parent` entry of a cell is frozen from the moment its `dp` cell holds. -/

/-- `StepOK s t`: `t` is reachable from `s` by loop steps — the matrix is
untouched, every true `dp` cell stays true, and the `parent` entry of a
cell that was already reached is never overwritten. -/
def StepOK (s t : DPState) : Prop :=
  t.adjM = s.adjM ∧
  ∀ m w, s.dp m w = true → (t.dp m w = true ∧ t.parent m w = s.parent m w)

lemma StepOK.refl {s : DPState} : StepOK s s :=
  ⟨rfl, fun _ _ h => ⟨h, rfl⟩⟩

lemma StepOK.trans {s t r : DPState} (h1 : StepOK s t) (h2 : StepOK t r) :
    StepOK s r := by
  refine ⟨h2.1.trans h1.1, fun m w hw => ?_⟩
  obtain ⟨d1, p1⟩ := h1.2 m w hw
  obtain ⟨d2, p2⟩ := h2.2 m w d1
  exact ⟨d2, p2.trans p1⟩

lemma extendStep_stepOK (mask u : Nat) (s : DPState) (v : Nat) :
    StepOK s (extendStep mask u s v) := by
  unfold extendStep
  split
  · split
    · split
      · exact StepOK.refl
      · rename_i hnotdp
        refine ⟨rfl, fun m w hw => ?_⟩
        constructor
        · simp only [upd2]
          split
          · rfl
          · exact hw
        · simp only [upd2]
          split
          · rename_i heq
            exact absurd (heq.1 ▸ heq.2 ▸ hw) hnotdp
          · rfl
    · exact StepOK.refl
  · exact StepOK.refl

lemma foldl_stepOK {β : Type} (g : DPState → β → DPState)
    (h : ∀ s x, StepOK s (g s x)) :
    ∀ (l : List β) (s : DPState), StepOK s (List.foldl g s l) := by
  intro l
  induction l with
  | nil => intro s; exact StepOK.refl
  | cons x t ih => intro s; exact (h s x).trans (ih (g s x))

lemma innerLoop_stepOK (n mask u : Nat) (s : DPState) :
    StepOK s (innerLoop n mask u s) :=
  foldl_stepOK _ (extendStep_stepOK mask u) _ s

lemma middleStep_stepOK (n mask : Nat) (s : DPState) (u : Nat) :
    StepOK s (middleStep n mask s u) := by
  unfold middleStep
  split
  · exact innerLoop_stepOK n mask u s
  · exact StepOK.refl

lemma middleLoop_stepOK (n mask : Nat) (s : DPState) :
    StepOK s (middleLoop n mask s) :=
  foldl_stepOK _ (middleStep_stepOK n mask) _ s

lemma dpUpTo_stepOK (n k : Nat) (s : DPState) : StepOK s (dpUpTo n k s) :=
  foldl_stepOK _ (fun s mask => middleLoop_stepOK n mask s) _ s

lemma dpLoop_stepOK (n : Nat) (s : DPState) : StepOK s (dpLoop n s) :=
  dpUpTo_stepOK n (1 <<< n) s

lemma dpUpTo_succ (n k : Nat) (s : DPState) :
    dpUpTo n (k + 1) s = middleLoop n k (dpUpTo n k s) := by
  unfold dpUpTo
  rw [List.range_succ, List.foldl_append]
  rfl

lemma dpUpTo_stepOK_of_le (n : Nat) {k k' : Nat} (h : k ≤ k') (s : DPState) :
    StepOK (dpUpTo n k s) (dpUpTo n k' s) := by
  induction k' with
  | zero =>
    have : k = 0 := Nat.le_zero.mp h
    subst this; exact StepOK.refl
  | succ k' ih =>
    rcases Nat.lt_or_ge k (k' + 1) with hlt | hge
    · have hk : k ≤ k' := Nat.lt_succ_iff.mp hlt
      rw [dpUpTo_succ]
      exact (ih hk).trans (middleLoop_stepOK n k' (dpUpTo n k' s))
    · have : k = k' + 1 := Nat.le_antisymm h hge
      subst this; exact StepOK.refl

/-! ## Frame lemmas: processing mask `mask` writes only to rows strictly
above `mask` (adding a fresh bit strictly increases the integer), so every
row `m ≤ mask` is frozen from the moment the outer loop reaches it. -/

lemma extendStep_frame (mask u v m w : Nat) (s : DPState) (hm : m ≤ mask) :
    (extendStep mask u s v).dp m w = s.dp m w ∧
    (extendStep mask u s v).parent m w = s.parent m w := by
  unfold extendStep
  split
  · rename_i hand
    split
    · split
      · exact ⟨rfl, rfl⟩
      · have hlt : mask < mask ||| (1 <<< v) := lt_or_shift mask v hand
        have hne : ¬(m = mask ||| (1 <<< v) ∧ w = v) := by
          rintro ⟨h1, -⟩; omega
        constructor <;> (simp only [upd2]; rw [if_neg hne])
    · exact ⟨rfl, rfl⟩
  · exact ⟨rfl, rfl⟩

lemma foldl_frame {β : Type} (g : DPState → β → DPState) (m w : Nat)
    (hg : ∀ s x, (g s x).dp m w = s.dp m w ∧ (g s x).parent m w = s.parent m w) :
    ∀ (l : List β) (s : DPState),
      (List.foldl g s l).dp m w = s.dp m w ∧
      (List.foldl g s l).parent m w = s.parent m w := by
  intro l
  induction l with
  | nil => intro s; exact ⟨rfl, rfl⟩
  | cons x t ih =>
    intro s
    obtain ⟨hd, hp⟩ := ih (g s x)
    obtain ⟨hd', hp'⟩ := hg s x
    exact ⟨hd.trans hd', hp.trans hp'⟩

lemma middleLoop_frame (n mask m w : Nat) (s : DPState) (hm : m ≤ mask) :
    (middleLoop n mask s).dp m w = s.dp m w ∧
    (middleLoop n mask s).parent m w = s.parent m w := by
  apply foldl_frame
  intro s u
  unfold middleStep
  split
  · exact foldl_frame _ m w (fun s v => extendStep_frame mask u v m w s hm) _ s
  · exact ⟨rfl, rfl⟩

/-- Stability: from the moment the outer mask loop reaches `m0`, row `m0`
of both tables never changes again. -/
lemma dpUpTo_stable (n : Nat) {k m0 : Nat} (h : m0 ≤ k) (s : DPState)
    (w : Nat) :
    (dpUpTo n k s).dp m0 w = (dpUpTo n m0 s).dp m0 w ∧
    (dpUpTo n k s).parent m0 w = (dpUpTo n m0 s).parent m0 w := by
  induction k with
  | zero =>
    have : m0 = 0 := Nat.le_zero.mp h
    subst this; exact ⟨rfl, rfl⟩
  | succ k ih =>
    rcases Nat.lt_or_ge m0 (k + 1) with hlt | hge
    · have hk : m0 ≤ k := Nat.lt_succ_iff.mp hlt
      rw [dpUpTo_succ]
      obtain ⟨hd, hp⟩ := middleLoop_frame n k m0 w (dpUpTo n k s) hk
      obtain ⟨hd', hp'⟩ := ih hk
      exact ⟨hd.trans hd', hp.trans hp'⟩
    · have : m0 = k + 1 := Nat.le_antisymm h hge
      subst this; exact ⟨rfl, rfl⟩

/-! ## Closed form of the base case -/

lemma initFold_dp (l : List Nat) (s : DPState) (m w : Nat) :
    ((List.foldl initStep s l).dp m w = true ↔
      ((w ∈ l ∧ m = 1 <<< w) ∨ s.dp m w = true)) := by
  induction l generalizing s with
  | nil => simp
  | cons v t ih =>
    have hstep : ((initStep s v).dp m w = true) ↔
        ((m = 1 <<< v ∧ w = v) ∨ s.dp m w = true) := by
      simp only [initStep, upd2]
      split
      · rename_i h; simp [h]
      · rename_i h; simp [h]
    rw [List.foldl_cons, ih, hstep, List.mem_cons]
    constructor
    · rintro (⟨hw, hm⟩ | (⟨hm, rfl⟩ | hs))
      · exact Or.inl ⟨Or.inr hw, hm⟩
      · exact Or.inl ⟨Or.inl rfl, hm⟩
      · exact Or.inr hs
    · rintro (⟨hw | hw, hm⟩ | hs)
      · subst hw; exact Or.inr (Or.inl ⟨hm, rfl⟩)
      · exact Or.inl ⟨hw, hm⟩
      · exact Or.inr (Or.inr hs)

lemma initFold_parent (l : List Nat) (s : DPState)
    (hs : ∀ m w, s.parent m w = -1) :
    ∀ m w, (List.foldl initStep s l).parent m w = -1 := by
  induction l generalizing s with
  | nil => exact hs
  | cons v t ih =>
    apply ih
    intro m w
    simp only [initStep, upd2]
    split
    · rfl
    · exact hs m w

lemma initFold_adjM (l : List Nat) (s : DPState) :
    (List.foldl initStep s l).adjM = s.adjM := by
  induction l generalizing s with
  | nil => rfl
  | cons v t ih => rw [List.foldl_cons, ih]; rfl

lemma initState_dp (adj : List (List Nat)) (m w : Nat) :
    ((initState adj).dp m w = true ↔ (w < adj.length ∧ m = 1 <<< w)) := by
  unfold initState
  rw [initFold_dp]
  simp [List.mem_range]

lemma initState_parent (adj : List (List Nat)) (m w : Nat) :
    (initState adj).parent m w = -1 :=
  initFold_parent _ _ (fun _ _ => rfl) m w

lemma initState_adjM (adj : List (List Nat)) : (initState adj).adjM = adj :=
  initFold_adjM _ _

/-! ## The soundness invariant

Every true `dp[m][u]` cell is a legitimate DP state: `u` is a vertex of the
graph, its bit is in `m`, `m` is a valid mask, and the parent pointer is
either the `-1` sentinel (then `m` is the singleton mask of `u`) or a
recorded predecessor `p` with an edge `p → u` whose own cell
`dp[m ^ (1 << u)][p]` is true. -/

def DPInv (n : Nat) (s : DPState) : Prop :=
  ∀ m u, s.dp m u = true →
    u < n ∧ m.testBit u = true ∧ m < 1 <<< n ∧
    ((s.parent m u = -1 ∧ m = 1 <<< u) ∨
      (∃ p, s.parent m u = Int.ofNat p ∧ p < n ∧ p ≠ u ∧
        m.testBit p = true ∧ adjVal s.adjM p u ≠ 0 ∧
        s.dp (m ^^^ (1 <<< u)) p = true))

lemma initState_inv (adj : List (List Nat)) :
    DPInv adj.length (initState adj) := by
  intro m u hdp
  obtain ⟨hu, rfl⟩ := (initState_dp adj m u).mp hdp
  refine ⟨hu, ?_, shift_lt_shift u adj.length hu, Or.inl ⟨initState_parent adj _ u, rfl⟩⟩
  rw [one_shiftLeft_eq_pow]
  exact Nat.testBit_two_pow_self

lemma extendStep_inv {n : Nat} {s : DPState} (mask u v : Nat)
    (hInv : DPInv n s) (hdp : s.dp mask u = true) (hv : v < n) :
    DPInv n (extendStep mask u s v) := by
  unfold extendStep
  split
  · rename_i hand
    split
    · rename_i hadj
      split
      · exact hInv
      · rename_i hnot
        obtain ⟨hu, hbitu, hmask, -⟩ := hInv mask u hdp
        have hbitv : mask.testBit v = false := (and_shift_eq_zero_iff mask v).mp hand
        have hnextlt : mask < mask ||| (1 <<< v) := lt_or_shift mask v hand
        intro m w hdpw
        simp only [upd2] at hdpw
        by_cases hcell : m = mask ||| (1 <<< v) ∧ w = v
        · obtain ⟨hm1, hw1⟩ := hcell
          subst hm1
          have hw1' := hw1.symm
          subst hw1'
          refine ⟨hv, ?_, ?_, Or.inr ⟨u, ?_, hu, ?_, ?_, ?_, ?_⟩⟩
          · simp [one_shiftLeft_eq_pow, Nat.testBit_or, Nat.testBit_two_pow_self]
          · rw [one_shiftLeft_eq_pow v, one_shiftLeft_eq_pow n]
            rw [one_shiftLeft_eq_pow n] at hmask
            exact Nat.or_lt_two_pow hmask (Nat.pow_lt_pow_right (by omega) hv)
          · simp [upd2]
          · intro heq
            rw [heq, hbitv] at hbitu
            exact Bool.noConfusion hbitu
          · simp [Nat.testBit_or, hbitu]
          · exact hadj
          · rw [or_xor_shift mask v hand]
            simp only [upd2]
            have : ¬(mask = mask ||| (1 <<< v) ∧ u = v) := by
              rintro ⟨h1, -⟩; omega
            rw [if_neg this]
            exact hdp
        · rw [if_neg hcell] at hdpw
          obtain ⟨hw, hbitw, hm, hrest⟩ := hInv m w hdpw
          refine ⟨hw, hbitw, hm, ?_⟩
          rcases hrest with ⟨hpar, hsing⟩ | ⟨p, hpar, hp, hpne, hbitp, hedge, hdpp⟩
          · refine Or.inl ⟨?_, hsing⟩
            simp only [upd2]
            rw [if_neg hcell]
            exact hpar
          · refine Or.inr ⟨p, ?_, hp, hpne, hbitp, hedge, ?_⟩
            · simp only [upd2]
              rw [if_neg hcell]
              exact hpar
            · simp only [upd2]
              split
              · rfl
              · exact hdpp
    · exact hInv
  · exact hInv

lemma innerFold_inv {n mask u : Nat} :
    ∀ (l : List Nat) (s : DPState), (∀ x ∈ l, x < n) → DPInv n s →
      s.dp mask u = true → DPInv n (List.foldl (extendStep mask u) s l) := by
  intro l
  induction l with
  | nil => intro s _ hInv _; exact hInv
  | cons v t ih =>
    intro s hl hInv hdp
    rw [List.foldl_cons]
    refine ih _ (fun x hx => hl x (List.mem_cons_of_mem v hx))
      (extendStep_inv mask u v hInv hdp (hl v (List.mem_cons_self v t))) ?_
    exact ((extendStep_stepOK mask u s v).2 mask u hdp).1

lemma innerLoop_inv {n mask u : Nat} {s : DPState} (hInv : DPInv n s)
    (hdp : s.dp mask u = true) : DPInv n (innerLoop n mask u s) :=
  innerFold_inv _ s (fun x hx => List.mem_range.mp hx) hInv hdp

lemma middleStep_inv {n mask : Nat} {s : DPState} (u : Nat)
    (hInv : DPInv n s) : DPInv n (middleStep n mask s u) := by
  unfold middleStep
  split
  · rename_i hdp; exact innerLoop_inv hInv hdp
  · exact hInv

lemma middleLoop_inv {n mask : Nat} {s : DPState} (hInv : DPInv n s) :
    DPInv n (middleLoop n mask s) := by
  unfold middleLoop
  generalize List.range n = l
  induction l generalizing s with
  | nil => exact hInv
  | cons u t ih =>
    rw [List.foldl_cons]
    exact ih (middleStep_inv u hInv)

lemma dpUpTo_inv {n : Nat} {s : DPState} (k : Nat) (hInv : DPInv n s) :
    DPInv n (dpUpTo n k s) := by
  unfold dpUpTo
  generalize List.range k = l
  induction l generalizing s with
  | nil => exact hInv
  | cons mask t ih =>
    rw [List.foldl_cons]
    exact ih (middleLoop_inv hInv)

lemma finalState_inv (adj : List (List Nat)) :
    DPInv adj.length (dpLoop adj.length (initState adj)) :=
  dpUpTo_inv _ (initState_inv adj)

lemma finalState_adjM (adj : List (List Nat)) :
    (dpLoop adj.length (initState adj)).adjM = adj :=
  (dpLoop_stepOK adj.length (initState adj)).1.trans (initState_adjM adj)

/-! ## Reconstruction: the parent chain walks down to the sentinel and
spells out a valid path. -/

/-- Number of set bits of `m` among positions `0..n-1`; the length of the
path a DP cell with mask `m` stands for. -/
def maskCard (n m : Nat) : Nat :=
  ((Finset.range n).filter (fun i => m.testBit i = true)).card

lemma maskCard_le (n m : Nat) : maskCard n m ≤ n :=
  le_trans (Finset.card_filter_le _ _) (by simp)

lemma maskCard_pos {n m u : Nat} (hu : u < n) (hb : m.testBit u = true) :
    0 < maskCard n m := by
  apply Finset.card_pos.mpr
  exact ⟨u, Finset.mem_filter.mpr ⟨Finset.mem_range.mpr hu, hb⟩⟩

lemma maskCard_xor {n m u : Nat} (hu : u < n) (hb : m.testBit u = true) :
    maskCard n (m ^^^ (1 <<< u)) = maskCard n m - 1 := by
  unfold maskCard
  have hset : (Finset.range n).filter
      (fun i => (m ^^^ (1 <<< u)).testBit i = true) =
      ((Finset.range n).filter (fun i => m.testBit i = true)).erase u := by
    ext i
    simp only [Finset.mem_filter, Finset.mem_erase, Finset.mem_range]
    rcases eq_or_ne i u with rfl | hne
    · simp [testBit_xor_shift_self, hb]
    · simp only [testBit_xor_shift_other m u i hne]
      tauto
  rw [hset, Finset.card_erase_of_mem
    (Finset.mem_filter.mpr ⟨Finset.mem_range.mpr hu, hb⟩)]

/-- Unfolding equation for one iteration of the reconstruction loop. -/
lemma reconstructLoop_succ (par : Nat → Nat → Int) (fuel curMask curV : Nat) :
    reconstructLoop par (fuel + 1) curMask curV =
      if par curMask curV = -1 then ([curV], true)
      else
        (curV :: (reconstructLoop par fuel (curMask ^^^ (1 <<< curV))
            (par curMask curV).toNat).1,
          (reconstructLoop par fuel (curMask ^^^ (1 <<< curV))
            (par curMask curV).toNat).2) := rfl

/-- Soundness of the parent table: from any true `dp[m][u]` cell, the
reconstruction loop terminates on the sentinel within `maskCard n m` steps
and emits, end first, a duplicate-free list of exactly the vertices of
`m`, consecutive elements linked backwards by edges of the matrix. -/
lemma reconstruct_sound {n : Nat} {s : DPState} (hInv : DPInv n s) :
    ∀ (fuel m u : Nat), s.dp m u = true → maskCard n m ≤ fuel →
    ∃ l : List Nat,
      reconstructLoop s.parent fuel m u = (l, true) ∧
      l.head? = some u ∧ l.Nodup ∧
      (∀ x, x ∈ l ↔ (x < n ∧ m.testBit x = true)) ∧
      List.Chain' (fun a b => adjVal s.adjM b a ≠ 0) l := by
  intro fuel
  induction fuel with
  | zero =>
    intro m u hdp hcard
    obtain ⟨hu, hbit, -, -⟩ := hInv m u hdp
    have := maskCard_pos hu hbit
    omega
  | succ fuel ih =>
    intro m u hdp hcard
    obtain ⟨hu, hbit, hm, hrest⟩ := hInv m u hdp
    rcases hrest with ⟨hpar, hsing⟩ | ⟨p, hpar, hp, hpne, hbitp, hedge, hdpp⟩
    · refine ⟨[u], by rw [reconstructLoop_succ, hpar, if_pos rfl], rfl,
        List.nodup_singleton u, ?_, List.chain'_singleton u⟩
      intro x
      subst hsing
      simp only [List.mem_singleton]
      constructor
      · rintro rfl
        exact ⟨hu, hbit⟩
      · rintro ⟨hxn, hbx⟩
        rw [one_shiftLeft_eq_pow] at hbx
        have := Nat.testBit_two_pow (n := u) (m := x)
        rw [hbx] at this
        exact (of_decide_eq_true this.symm).symm
    · have hne1 : s.parent m u ≠ -1 := by
        rw [hpar]
        exact fun h => Int.noConfusion h
      have hcard' : maskCard n (m ^^^ (1 <<< u)) ≤ fuel := by
        rw [maskCard_xor hu hbit]
        have := maskCard_pos hu hbit
        omega
      obtain ⟨l', heq, hhead, hnod, hmem, hchain⟩ :=
        ih (m ^^^ (1 <<< u)) p hdpp hcard'
      have hunotin : u ∉ l' := by
        intro hin
        obtain ⟨-, hbx⟩ := (hmem u).mp hin
        rw [testBit_xor_shift_self, hbit] at hbx
        exact Bool.noConfusion hbx
      refine ⟨u :: l', ?_, rfl, ?_, ?_, ?_⟩
      · rw [reconstructLoop_succ, if_neg hne1, hpar,
          show (Int.ofNat p).toNat = p from rfl, heq]
      · exact List.nodup_cons.mpr ⟨hunotin, hnod⟩
      · intro x
        rw [List.mem_cons, hmem x]
        constructor
        · rintro (rfl | ⟨hxn, hbx⟩)
          · exact ⟨hu, hbit⟩
          · rcases eq_or_ne x u with rfl | hxu
            · exact ⟨hu, hbit⟩
            · rw [testBit_xor_shift_other m u x hxu] at hbx
              exact ⟨hxn, hbx⟩
        · rintro ⟨hxn, hbx⟩
          rcases eq_or_ne x u with rfl | hxu
          · exact Or.inl rfl
          · refine Or.inr ⟨hxn, ?_⟩
            rw [testBit_xor_shift_other m u x hxu]
            exact hbx
      · rw [List.chain'_cons']
        refine ⟨?_, hchain⟩
        intro y hy
        rw [hhead] at hy
        obtain rfl := Option.mem_some_iff.mp hy
        exact hedge

/-! ## Completeness: every valid simple path is found by the DP.

The key step ("reach"): when the outer loop processes mask `m0` and
`dp[m0][w]` already holds, the inner loops set `dp[m0 | 1 << v0][v0]` for
every vertex `v0` outside `m0` with an edge `w → v0`; stability plus
monotonicity transport this to the final state. -/

lemma range_split {x n : Nat} (h : x < n) :
    List.range n = List.range x ++ x ::
      (List.range (n - x - 1)).map (fun j => x + 1 + j) := by
  conv_lhs => rw [show n = (x + 1) + (n - x - 1) by omega]
  rw [List.range_add, List.range_succ, List.append_assoc, List.singleton_append]

lemma innerLoop_reach {n mask u : Nat} (s : DPState) (v0 : Nat)
    (hv0 : v0 < n) (hand : mask &&& (1 <<< v0) = 0)
    (hadj : adjVal s.adjM u v0 ≠ 0) :
    (innerLoop n mask u s).dp (mask ||| (1 <<< v0)) v0 = true := by
  unfold innerLoop
  rw [range_split hv0, List.foldl_append, List.foldl_cons]
  have hadj1 : adjVal ((List.range v0).foldl (extendStep mask u) s).adjM u v0 ≠ 0 := by
    rw [(foldl_stepOK _ (extendStep_stepOK mask u) _ s).1]
    exact hadj
  have hkey : (extendStep mask u ((List.range v0).foldl (extendStep mask u) s) v0).dp
      (mask ||| (1 <<< v0)) v0 = true := by
    rw [extendStep, if_pos hand, if_pos hadj1]
    split
    · rename_i h; exact h
    · simp [upd2]
  exact ((foldl_stepOK _ (extendStep_stepOK mask u) _ _).2 _ _ hkey).1

lemma middleLoop_reach {n mask : Nat} (s : DPState) (w : Nat) (hw : w < n)
    (hdpw : s.dp mask w = true) (v0 : Nat) (hv0 : v0 < n)
    (hand : mask &&& (1 <<< v0) = 0) (hadj : adjVal s.adjM w v0 ≠ 0) :
    (middleLoop n mask s).dp (mask ||| (1 <<< v0)) v0 = true := by
  unfold middleLoop
  rw [range_split hw, List.foldl_append, List.foldl_cons]
  have hpre := foldl_stepOK _ (middleStep_stepOK n mask) (List.range w) s
  have hdpw1 : ((List.range w).foldl (middleStep n mask) s).dp mask w = true :=
    (hpre.2 mask w hdpw).1
  have hkey : (middleStep n mask ((List.range w).foldl (middleStep n mask) s) w).dp
      (mask ||| (1 <<< v0)) v0 = true := by
    rw [middleStep, if_pos hdpw1]
    apply innerLoop_reach _ v0 hv0 hand
    rw [hpre.1]
    exact hadj
  exact ((foldl_stepOK _ (middleStep_stepOK n mask) _ _).2 _ _ hkey).1

lemma dpLoop_reach {n : Nat} (s0 : DPState) (m0 w v0 : Nat)
    (hm0 : m0 < 1 <<< n) (hw : w < n) (hv0 : v0 < n)
    (hand : m0 &&& (1 <<< v0) = 0) (hadj : adjVal s0.adjM w v0 ≠ 0)
    (hdp : (dpLoop n s0).dp m0 w = true) :
    (dpLoop n s0).dp (m0 ||| (1 <<< v0)) v0 = true := by
  have hdp0 : (dpUpTo n m0 s0).dp m0 w = true := by
    rw [← (dpUpTo_stable n (Nat.le_of_lt hm0) s0 w).1]
    exact hdp
  have hreach : (dpUpTo n (m0 + 1) s0).dp (m0 ||| (1 <<< v0)) v0 = true := by
    rw [dpUpTo_succ]
    apply middleLoop_reach _ w hw hdp0 v0 hv0 hand
    rw [(dpUpTo_stepOK n m0 s0).1]
    exact hadj
  exact ((dpUpTo_stepOK_of_le n (show m0 + 1 ≤ 1 <<< n from hm0) s0).2 _ _ hreach).1

/-- The bitmask of a list of vertices, accumulated the way masks are built
along a path. -/
def maskOf : List Nat → Nat
  | [] => 0
  | v :: t => maskOf t ||| (1 <<< v)

lemma testBit_maskOf (l : List Nat) (x : Nat) :
    ((maskOf l).testBit x = true ↔ x ∈ l) := by
  induction l with
  | nil => simp [maskOf]
  | cons v t ih =>
    simp only [maskOf, Nat.testBit_or, Bool.or_eq_true, ih,
      one_shiftLeft_eq_pow, Nat.testBit_two_pow, List.mem_cons,
      decide_eq_true_eq]
    constructor
    · rintro (hx | rfl)
      · exact Or.inr hx
      · exact Or.inl rfl
    · rintro (rfl | hx)
      · exact Or.inr rfl
      · exact Or.inl hx

lemma maskOf_lt {n : Nat} (l : List Nat) (hl : ∀ x ∈ l, x < n) :
    maskOf l < 1 <<< n := by
  induction l with
  | nil =>
    rw [one_shiftLeft_eq_pow]
    exact Nat.pos_pow_of_pos n (by omega)
  | cons v t ih =>
    show maskOf t ||| (1 <<< v) < 1 <<< n
    rw [one_shiftLeft_eq_pow n]
    apply Nat.or_lt_two_pow
    · rw [← one_shiftLeft_eq_pow n]
      exact ih (fun x hx => hl x (List.mem_cons_of_mem v hx))
    · rw [one_shiftLeft_eq_pow]
      exact Nat.pow_lt_pow_right (by omega) (hl v (List.mem_cons_self v t))

/-- Completeness, phrased on the reversed path: if `u :: t` is (end first)
a duplicate-free chain of edges among the vertices of the graph, the final
DP state holds the corresponding cell. -/
lemma dp_complete_rev (adj : List (List Nat)) :
    ∀ (t : List Nat) (u : Nat), u < adj.length →
      (∀ x ∈ t, x < adj.length) → (u :: t).Nodup →
      List.Chain' (fun a b => adjVal adj b a ≠ 0) (u :: t) →
      (dpLoop adj.length (initState adj)).dp (maskOf (u :: t)) u = true := by
  intro t
  induction t with
  | nil =>
    intro u hu _ _ _
    have hinit : (initState adj).dp (1 <<< u) u = true :=
      (initState_dp adj _ u).mpr ⟨hu, rfl⟩
    have hfin := ((dpLoop_stepOK adj.length (initState adj)).2 _ _ hinit).1
    show (dpLoop adj.length (initState adj)).dp (maskOf [] ||| (1 <<< u)) u = true
    have : maskOf [] ||| (1 <<< u) = 1 <<< u := by
      show 0 ||| (1 <<< u) = 1 <<< u
      exact Nat.zero_or _
    rw [this]
    exact hfin
  | cons w t' ih =>
    intro u hu hmem hnodup hchain
    have hw : w < adj.length := hmem w (List.mem_cons_self w t')
    obtain ⟨hedge, hchain'⟩ := List.chain'_cons.mp hchain
    obtain ⟨hu_notin, hnodup'⟩ := List.nodup_cons.mp hnodup
    have ihdp := ih w hw (fun x hx => hmem x (List.mem_cons_of_mem w hx))
      hnodup' hchain'
    have hand : maskOf (w :: t') &&& (1 <<< u) = 0 := by
      apply (and_shift_eq_zero_iff _ u).mpr
      rw [← Bool.not_eq_true]
      intro hbt
      exact hu_notin ((testBit_maskOf _ u).mp hbt)
    have hm0 : maskOf (w :: t') < 1 <<< adj.length :=
      maskOf_lt _ (fun x hx => hmem x hx)
    have hadj0 : adjVal (initState adj).adjM w u ≠ 0 := by
      rw [initState_adjM]
      exact hedge
    exact dpLoop_reach (initState adj) (maskOf (w :: t')) w u hm0 hw hu
      hand hadj0 ihdp

/-! ## Top-level correctness of `find_hamiltonian_path` -/

/-- Fuel sufficiency for the reconstruction invoked by the solver: from any
true full-mask cell, the loop reaches the sentinel within the `n + 1`
iterations available. -/
lemma reconstruct_flag (adj : List (List Nat)) (v : Nat)
    (hdp : (dpLoop adj.length (initState adj)).dp
      ((1 <<< adj.length) - 1) v = true) :
    (reconstructLoop (dpLoop adj.length (initState adj)).parent
      (adj.length + 1) ((1 <<< adj.length) - 1) v).2 = true := by
  obtain ⟨l, heq, -, -, -, -⟩ :=
    reconstruct_sound (finalState_inv adj) (adj.length + 1) _ v hdp
      (by have := maskCard_le adj.length ((1 <<< adj.length) - 1); omega)
  rw [heq]

/-- A reported negative always comes with the empty path. -/
lemma find_false_empty (adj : List (List Nat))
    (h : (find_hamiltonian_path adj).1 = false) :
    (find_hamiltonian_path adj).2 = [] := by
  cases hfind : (List.range adj.length).find?
      (fun v => (dpLoop adj.length (initState adj)).dp
        ((1 <<< adj.length) - 1) v) with
  | none => simp [find_hamiltonian_path, hfind]
  | some v => simp [find_hamiltonian_path, hfind] at h

/-- Validity: a reported positive comes with a path that is a permutation
of all the vertices and follows edges of the matrix. -/
lemma find_true_valid (adj : List (List Nat))
    (h : (find_hamiltonian_path adj).1 = true) :
    ((find_hamiltonian_path adj).2).Perm (List.range adj.length) ∧
      List.Chain' (fun u v => adjVal adj u v ≠ 0)
        ((find_hamiltonian_path adj).2) := by
  cases hfind : (List.range adj.length).find?
      (fun v => (dpLoop adj.length (initState adj)).dp
        ((1 <<< adj.length) - 1) v) with
  | none => simp [find_hamiltonian_path, hfind] at h
  | some v =>
    have hdp : (dpLoop adj.length (initState adj)).dp
        ((1 <<< adj.length) - 1) v = true := List.find?_some hfind
    obtain ⟨l, heq, hhead, hnod, hmem, hchain⟩ :=
      reconstruct_sound (finalState_inv adj) (adj.length + 1) _ v hdp
        (by have := maskCard_le adj.length ((1 <<< adj.length) - 1); omega)
    have hfd : find_hamiltonian_path adj = (true, l.reverse) := by
      simp [find_hamiltonian_path, hfind, heq]
    rw [hfd]
    show l.reverse.Perm (List.range adj.length) ∧
      List.Chain' (fun u v => adjVal adj u v ≠ 0) l.reverse
    constructor
    · apply (List.perm_ext_iff_of_nodup (List.nodup_reverse.mpr hnod)
        (List.nodup_range _)).mpr
      intro a
      rw [List.mem_reverse, hmem a, List.mem_range, one_shiftLeft_eq_pow,
        Nat.testBit_two_pow_sub_one]
      simp
    · simp only [finalState_adjM] at hchain
      exact List.chain'_reverse.mpr hchain

/-- Completeness: a Hamiltonian path in the graph makes the solver report
`True` (for a nonempty vertex set; see the `n = 0` divergence below). -/
lemma find_complete (adj : List (List Nat)) (p : List Nat)
    (hperm : p.Perm (List.range adj.length))
    (hchain : List.Chain' (fun u v => adjVal adj u v ≠ 0) p)
    (hn : 0 < adj.length) :
    (find_hamiltonian_path adj).1 = true := by
  have hlen : p.length = adj.length :=
    hperm.length_eq.trans (List.length_range _)
  have hne : p ≠ [] := by
    intro h
    rw [h] at hlen
    simp at hlen
    omega
  obtain ⟨u, t, hrev⟩ : ∃ u t, p.reverse = u :: t := by
    cases hr : p.reverse with
    | nil => exact absurd (List.reverse_eq_nil_iff.mp hr) hne
    | cons a b => exact ⟨a, b, rfl⟩
  have hchainrev : List.Chain' (fun a b => adjVal adj b a ≠ 0) (u :: t) := by
    rw [← hrev]
    exact List.chain'_reverse.mpr hchain
  have hmemrev : ∀ x ∈ u :: t, x < adj.length := by
    intro x hx
    rw [← hrev, List.mem_reverse] at hx
    exact List.mem_range.mp (hperm.mem_iff.mp hx)
  have hnodup : (u :: t).Nodup := by
    rw [← hrev]
    exact List.nodup_reverse.mpr (hperm.nodup_iff.mpr (List.nodup_range _))
  have hu_n : u < adj.length := hmemrev u (List.mem_cons_self u t)
  have hdp := dp_complete_rev adj t u hu_n
    (fun x hx => hmemrev x (List.mem_cons_of_mem u hx)) hnodup hchainrev
  have hmask : maskOf (u :: t) = (1 <<< adj.length) - 1 := by
    rw [one_shiftLeft_eq_pow]
    apply Nat.eq_of_testBit_eq
    intro i
    rw [Nat.testBit_two_pow_sub_one]
    by_cases hi : i ∈ u :: t
    · rw [(testBit_maskOf _ i).mpr hi]
      exact (decide_eq_true (hmemrev i hi)).symm
    · have h1 : (maskOf (u :: t)).testBit i = false := by
        rw [← Bool.not_eq_true]
        intro hbt
        exact hi ((testBit_maskOf _ i).mp hbt)
      rw [h1]
      have h2 : ¬ i < adj.length := by
        intro hlt
        apply hi
        rw [← hrev, List.mem_reverse]
        exact hperm.mem_iff.mpr (List.mem_range.mpr hlt)
      simp [h2]
  rw [hmask] at hdp
  cases hfind : (List.range adj.length).find?
      (fun v => (dpLoop adj.length (initState adj)).dp
        ((1 <<< adj.length) - 1) v) with
  | some v => simp [find_hamiltonian_path, hfind]
  | none =>
    exfalso
    exact List.find?_eq_none.mp hfind u (List.mem_range.mpr hu_n) hdp

/-- The existence verdict coincides with the exhaustive permutation search
on every graph with at least one vertex. -/
lemma find_exists_iff (adj : List (List Nat)) (hn : 0 < adj.length) :
    ((find_hamiltonian_path adj).1 = true ↔
      ∃ p : List Nat, p.Perm (List.range adj.length) ∧
        List.Chain' (fun u v => adjVal adj u v ≠ 0) p) := by
  constructor
  · intro h
    obtain ⟨hperm, hchain⟩ := find_true_valid adj h
    exact ⟨_, hperm, hchain⟩
  · rintro ⟨p, hperm, hchain⟩
    exact find_complete adj p hperm hchain hn

/-! ## Spec scenarios (§8 of the specification) as sanity checks -/

example : find_hamiltonian_path [[0, 1], [0, 0]] = (true, [0, 1]) := by decide
example : find_hamiltonian_path [[0, 0], [0, 0]] = (false, []) := by decide
example : find_hamiltonian_path [[0, 1, 0], [0, 0, 1], [1, 0, 0]]
    = (true, [1, 2, 0]) := by decide
example : find_hamiltonian_path [[0, 0, 0], [0, 0, 0], [0, 0, 0]]
    = (false, []) := by decide
example : find_hamiltonian_path
    [[0, 1, 0, 0], [0, 0, 0, 0], [0, 0, 0, 1], [0, 0, 0, 0]]
    = (false, []) := by decide
example : find_hamiltonian_path
    [[0, 1, 0, 0], [0, 0, 1, 0], [0, 0, 0, 1], [0, 0, 0, 0]]
    = (true, [0, 1, 2, 3]) := by decide

/-! ## The claims -/

/-- Claim C1: whenever `find_hamiltonian_path` reports existence, the
returned path has exactly `n` elements, contains every vertex `0..n-1`
exactly once (it is a permutation of `range n`), and every consecutive
pair is joined by a nonzero adjacency entry; and a reported non-existence
always carries the empty path, so a partial path is never returned. -/
theorem claim_C1_validity (adj : List (List Nat)) (hsq : Square adj) :
    ((find_hamiltonian_path adj).1 = true →
      ((find_hamiltonian_path adj).2).length = adj.length ∧
      ((find_hamiltonian_path adj).2).Perm (List.range adj.length) ∧
      List.Chain' (fun u v => adjVal adj u v ≠ 0)
        ((find_hamiltonian_path adj).2)) ∧
    ((find_hamiltonian_path adj).1 = false →
      (find_hamiltonian_path adj).2 = []) := by
  constructor
  · intro h
    obtain ⟨hperm, hchain⟩ := find_true_valid adj h
    exact ⟨hperm.length_eq.trans (List.length_range _), hperm, hchain⟩
  · exact find_false_empty adj

/-- Witness for C1 on the linear chain `0 → 1 → 2 → 3`. -/
theorem claim_C1_validity_witness :
    Square [[0, 1, 0, 0], [0, 0, 1, 0], [0, 0, 0, 1], [0, 0, 0, 0]] ∧
    (((find_hamiltonian_path
        [[0, 1, 0, 0], [0, 0, 1, 0], [0, 0, 0, 1], [0, 0, 0, 0]]).1 = true →
      ((find_hamiltonian_path
        [[0, 1, 0, 0], [0, 0, 1, 0], [0, 0, 0, 1], [0, 0, 0, 0]]).2).length =
        (([[0, 1, 0, 0], [0, 0, 1, 0], [0, 0, 0, 1], [0, 0, 0, 0]] :
          List (List Nat))).length ∧
      ((find_hamiltonian_path
        [[0, 1, 0, 0], [0, 0, 1, 0], [0, 0, 0, 1], [0, 0, 0, 0]]).2).Perm
        (List.range (([[0, 1, 0, 0], [0, 0, 1, 0], [0, 0, 0, 1],
          [0, 0, 0, 0]] : List (List Nat))).length) ∧
      List.Chain' (fun u v => adjVal
          [[0, 1, 0, 0], [0, 0, 1, 0], [0, 0, 0, 1], [0, 0, 0, 0]] u v ≠ 0)
        ((find_hamiltonian_path
          [[0, 1, 0, 0], [0, 0, 1, 0], [0, 0, 0, 1], [0, 0, 0, 0]]).2)) ∧
    ((find_hamiltonian_path
        [[0, 1, 0, 0], [0, 0, 1, 0], [0, 0, 0, 1], [0, 0, 0, 0]]).1 = false →
      (find_hamiltonian_path
        [[0, 1, 0, 0], [0, 0, 1, 0], [0, 0, 0, 1], [0, 0, 0, 0]]).2 = [])) :=
  ⟨by decide, claim_C1_validity _ (by decide)⟩

/-- Claim C2 (divergence at the failing input `adj = []`): the code reports
non-existence on the empty graph, yet the empty ordering of all `0`
vertices vacuously passes the exhaustive permutation-search criterion, so
the claimed equivalence with permutation search fails at `n = 0` (and only
there — see `find_exists_iff` and `find_false_empty` for `n ≥ 1`). -/
theorem claim_C2_n0_divergence :
    find_hamiltonian_path [] = (false, []) ∧
    ∃ p : List Nat,
      p.Perm (List.range (([] : List (List Nat))).length) ∧
      List.Chain' (fun u v => adjVal [] u v ≠ 0) p :=
  ⟨by decide, [], by simp, List.chain'_nil⟩

/-- Claim C3 (divergence at the failing input `adj = []`): on the empty
matrix the code returns existence `False` with the empty path, not the
`True` the specification defines for `n = 0`. -/
theorem claim_C3_n0_result : find_hamiltonian_path [] = (false, []) := by
  decide

/-- Claim C4: on any 1×1 matrix the solver returns existence `True` with
path `[0]`, regardless of the diagonal entry (the inner loop skips the only
candidate vertex before ever consulting the matrix). -/
theorem claim_C4_single_vertex :
    ∀ a : Nat, find_hamiltonian_path [[a]] = (true, [0]) :=
  fun _ => rfl

/-- Claim C5: the solver is deterministic — equal inputs give equal
outputs, the same verdict and the same path element for element. -/
theorem claim_C5_deterministic :
    ∀ (a b : List (List Nat)), a = b →
      find_hamiltonian_path a = find_hamiltonian_path b ∧
      (find_hamiltonian_path a).1 = (find_hamiltonian_path b).1 ∧
      ∀ i : Nat, ((find_hamiltonian_path a).2)[i]? =
        ((find_hamiltonian_path b).2)[i]? := by
  rintro a b rfl
  exact ⟨rfl, rfl, fun _ => rfl⟩

/-- Witness for C5 at a concrete repeated input. -/
theorem claim_C5_deterministic_witness :
    (([[0, 1], [0, 0]] : List (List Nat)) = [[0, 1], [0, 0]]) ∧
    (find_hamiltonian_path [[0, 1], [0, 0]] =
      find_hamiltonian_path [[0, 1], [0, 0]] ∧
    (find_hamiltonian_path [[0, 1], [0, 0]]).1 =
      (find_hamiltonian_path [[0, 1], [0, 0]]).1 ∧
    ∀ i : Nat, ((find_hamiltonian_path [[0, 1], [0, 0]]).2)[i]? =
      ((find_hamiltonian_path [[0, 1], [0, 0]]).2)[i]?) :=
  ⟨rfl, claim_C5_deterministic [[0, 1], [0, 0]] [[0, 1], [0, 0]] rfl⟩

/-- Claim C6: the tables are populated write-once.  Across any later stretch
of the outer mask loop of a run, a true `dp` cell stays true and its
`parent` entry is never overwritten; and likewise across every single
innermost write step `extendStep`, at any state whatsoever. -/
theorem claim_C6_write_once :
    (∀ (adj : List (List Nat)) (k k' m w : Nat), k ≤ k' →
      (dpUpTo adj.length k (initState adj)).dp m w = true →
      ((dpUpTo adj.length k' (initState adj)).dp m w = true ∧
        (dpUpTo adj.length k' (initState adj)).parent m w =
          (dpUpTo adj.length k (initState adj)).parent m w)) ∧
    (∀ (mask u : Nat) (s : DPState) (v m w : Nat), s.dp m w = true →
      ((extendStep mask u s v).dp m w = true ∧
        (extendStep mask u s v).parent m w = s.parent m w)) := by
  constructor
  · intro adj k k' m w hkk hdp
    exact (dpUpTo_stepOK_of_le adj.length hkk (initState adj)).2 m w hdp
  · intro mask u s v m w hdp
    exact (extendStep_stepOK mask u s v).2 m w hdp

/-- Witness for C6: cell `(1, 0)` set by the base case survives, table
entry untouched, from outer step 1 to the end of the loop on a 2-vertex
graph; and one concrete `extendStep` leaves it alone as well. -/
theorem claim_C6_write_once_witness :
    ((1 : Nat) ≤ 4) ∧
    ((dpUpTo 2 1 (initState [[0, 1], [0, 0]])).dp 1 0 = true) ∧
    ((dpUpTo 2 4 (initState [[0, 1], [0, 0]])).dp 1 0 = true ∧
      (dpUpTo 2 4 (initState [[0, 1], [0, 0]])).parent 1 0 =
        (dpUpTo 2 1 (initState [[0, 1], [0, 0]])).parent 1 0) ∧
    ((initState [[0, 1], [0, 0]]).dp 1 0 = true) ∧
    ((extendStep 1 0 (initState [[0, 1], [0, 0]]) 1).dp 1 0 = true ∧
      (extendStep 1 0 (initState [[0, 1], [0, 0]]) 1).parent 1 0 =
        (initState [[0, 1], [0, 0]]).parent 1 0) :=
  ⟨by decide, by decide,
    claim_C6_write_once.1 [[0, 1], [0, 0]] 1 4 1 0 (by decide) (by decide),
    by decide,
    claim_C6_write_once.2 1 0 (initState [[0, 1], [0, 0]]) 1 1 0 (by decide)⟩

/-- Claim C7: the solver is total.  In the embedding every loop is a
bounded fold, and the one source loop whose termination is not syntactic —
the parent-pointer reconstruction — always reaches the `-1` sentinel
within the `n + 1` steps available, from every full-mask cell the scan can
select. -/
theorem claim_C7_reconstruction_total (adj : List (List Nat))
    (hsq : Square adj) (v : Nat)
    (hdp : (dpLoop adj.length (initState adj)).dp
      ((1 <<< adj.length) - 1) v = true) :
    (reconstructLoop (dpLoop adj.length (initState adj)).parent
      (adj.length + 1) ((1 <<< adj.length) - 1) v).2 = true :=
  reconstruct_flag adj v hdp

/-- Witness for C7 on a 2-vertex graph with the path `0 → 1`. -/
theorem claim_C7_reconstruction_total_witness :
    Square [[0, 1], [0, 0]] ∧
    ((dpLoop (([[0, 1], [0, 0]] : List (List Nat))).length
        (initState [[0, 1], [0, 0]])).dp
      ((1 <<< (([[0, 1], [0, 0]] : List (List Nat))).length) - 1) 1 = true) ∧
    (reconstructLoop (dpLoop (([[0, 1], [0, 0]] : List (List Nat))).length
        (initState [[0, 1], [0, 0]])).parent
      ((([[0, 1], [0, 0]] : List (List Nat))).length + 1)
      ((1 <<< (([[0, 1], [0, 0]] : List (List Nat))).length) - 1) 1).2 =
      true :=
  ⟨by decide, by decide,
    claim_C7_reconstruction_total [[0, 1], [0, 0]] (by decide) 1 (by decide)⟩

/-- Claim C8: the entry point accepts the optional solver-parameters and
extra-arguments objects of any shape and ignores them — the result equals
the result of the call with both absent. -/
theorem claim_C8_optional_params_ignored :
    ∀ (α β : Type) (input_data : List (String × List (List Nat)))
      (solver_params : Option α) (extra_arguments : Option β),
      run input_data solver_params extra_arguments =
        run input_data (none : Option Unit) (none : Option Unit) :=
  fun _ _ _ _ _ => rfl

/-- Claim C9: the solver has no side effects on its input — the adjacency
matrix carried through the working state is bit-for-bit the caller's
matrix after the base case and after the whole DP loop (the reconstruction
reads only the parent table), and all working state is created fresh from
`adj` alone inside the call. -/
theorem claim_C9_no_side_effects :
    ∀ adj : List (List Nat),
      (initState adj).adjM = adj ∧
      (dpLoop adj.length (initState adj)).adjM = adj :=
  fun adj => ⟨initState_adjM adj, finalState_adjM adj⟩

/-- Claim C10: a request object without the `"adjacency_matrix"` key makes
`run` raise `KeyError` instead of returning a response object. -/
theorem claim_C10_missing_key_raises (α β : Type)
    (input_data : List (String × List (List Nat)))
    (solver_params : Option α) (extra_arguments : Option β)
    (h : input_data.lookup "adjacency_matrix" = none) :
    run input_data solver_params extra_arguments =
      Except.error (PyError.keyError "adjacency_matrix") := by
  unfold run
  rw [h]

/-- Witness for C10 on a request holding only an unrelated key. -/
theorem claim_C10_missing_key_raises_witness :
    (([("foo", [[1]])] : List (String × List (List Nat))).lookup
      "adjacency_matrix" = none) ∧
    run ([("foo", [[1]])] : List (String × List (List Nat)))
        (none : Option Unit) (none : Option Unit) =
      Except.error (PyError.keyError "adjacency_matrix") :=
  ⟨by decide,
    claim_C10_missing_key_raises Unit Unit [("foo", [[1]])] none none
      (by decide)⟩
